import Mathlib

/-!
Verification of the path/stream utility library (`src/main/cpp/util/file.cc`)
against its natural-language specification.

The C++ functions are shallowly embedded as Lean functions:
* `NormalizePath` works on the `List Char` underlying a `String`;
  the C++ scan over `path[i]` (which stops at the first NUL, since
  `std::string::operator[]` yields `'\0'` at the end and the loop breaks on it)
  becomes structural recursion over the character list with an explicit
  NUL case.
* `ReadFrom` / `WriteTo` take the caller-supplied I/O primitive as an explicit
  state-passing function; the unbounded `while` loop of `ReadFrom` gets a fuel
  parameter, returning `none` when the fuel runs out.
* the directory walker's injected enumeration primitive is modelled by an
  inductive tree of entries: enumerating a directory yields its child list.
-/

/-- One segment folded into the retained-segment stack
(`file.cc` lines 58–64): `..` pops, `.` is dropped, anything else is pushed. -/
def applySegment (segs : List (List Char)) (segment : List Char) : List (List Char) :=
  if segment = ['.', '.'] then segs.dropLast
  else if segment = ['.'] then segs
  else segs ++ [segment]

/-- The character scan of `NormalizePath` (`file.cc` lines 46–69).
`cur` holds the characters of the currently open segment, in reverse.
A `/` ends the segment; a NUL ends the segment and stops the scan
(C++ indexes up to the terminating `'\0'` and breaks there). -/
def parseSegments : List Char → List Char → List (List Char) → List (List Char)
  | [], cur, segs => if cur = [] then segs else applySegment segs cur.reverse
  | c :: rest, cur, segs =>
      if c = '\x00' then
        (if cur = [] then segs else applySegment segs cur.reverse)
      else if c = '/' then
        parseSegments rest [] (if cur = [] then segs else applySegment segs cur.reverse)
      else
        parseSegments rest (c :: cur) segs

/-- The output loop of `NormalizePath` (`file.cc` lines 80–86), after the first
segment has been emitted: every further segment is preceded by `/`. -/
def joinLoop : List (List Char) → List Char → List Char
  | [], acc => acc
  | s :: rest, acc => joinLoop rest (acc ++ '/' :: s)

/-- Joining all retained segments (`file.cc` lines 77–86): the first segment is
preceded by `/` exactly when the input was absolute, every later one always. -/
def joinSegments (isAbs : Bool) : List (List Char) → List Char
  | [] => []
  | s :: rest => joinLoop rest ((if isAbs then ['/'] else []) ++ s)

/-- `NormalizePath` on the underlying character list (`file.cc` lines 35–88). -/
def normalizeChars : List Char → List Char
  | [] => []
  | c :: rest =>
      let segs := parseSegments (c :: rest) [] []
      if segs = [] ∧ c = '/' then ['/']
      else joinSegments (c == '/') segs

/-- `blaze_util::NormalizePath` (`file.cc` lines 35–88). -/
def NormalizePath (path : String) : String := ⟨normalizeChars path.data⟩

/-- `blaze_util::JoinPath` (`file.cc` lines 136–159). -/
def JoinPath (path1 path2 : String) : String :=
  if path1 = "" then path2
  else if path1.data.getLast? = some '/' then
    if path2.data.head? = some '/' then path1 ++ ⟨path2.data.tail⟩
    else path1 ++ path2
  else
    if path2.data.head? = some '/' then path1 ++ path2
    else path1 ++ "/" ++ path2

/-- The outcome of one call to the injected read primitive:
`bytes bs` models a return value `r = bs.length ≥ 0` with `bs` the bytes
deposited in the chunk buffer (`bytes []` is `r = 0`, end of input);
`err true` models `r = -1` with `errno ∈ {EINTR, EAGAIN}`;
`err false` models `r = -1` with any other `errno`. -/
inductive ReadResult where
  | bytes : List Char → ReadResult
  | err : Bool → ReadResult
deriving DecidableEq

/-- Number of bytes a `ReadResult` deposits in the buffer. -/
def resLen : ReadResult → Nat
  | .bytes bs => bs.length
  | .err _ => 0

/-- The length requested from the read primitive on one iteration
(`file.cc` lines 96–98): `min(max_size, 4096)` while a positive allowance
remains, the full chunk capacity `4096` otherwise. -/
def nextRequest (max_size : Int) : Nat :=
  (if 0 < max_size then min max_size 4096 else 4096).toNat

/-- The `while` loop of `ReadFrom` (`file.cc` lines 95–111), with fuel.
The read primitive is state-passing (`σ` is its internal state); `content`
is what has been appended to the output buffer so far.  The result is
`none` when the fuel runs out, otherwise the final primitive state, the
buffer contents, and the boolean the C++ function returns. -/
def ReadFromLoop {σ : Type} (read_func : σ → Nat → σ × ReadResult) :
    Nat → σ → List Char → Int → Option (σ × List Char × Bool)
  | 0, _, _, _ => none
  | fuel + 1, s, content, max_size =>
      match read_func s (nextRequest max_size) with
      | (s', .err true) => ReadFromLoop read_func fuel s' content max_size
      | (s', .err false) => some (s', content, false)
      | (s', .bytes []) => some (s', content, true)
      | (s', .bytes bs) =>
          if 0 < max_size then
            if (bs.length : Int) < max_size then
              ReadFromLoop read_func fuel s' (content ++ bs) (max_size - bs.length)
            else some (s', content ++ bs, true)
          else ReadFromLoop read_func fuel s' (content ++ bs) max_size

/-- `blaze_util::ReadFrom` (`file.cc` lines 90–113): the output buffer is
cleared (`content->clear()`) and the loop starts from the empty buffer;
`out_buffer` is the buffer's previous contents, which are discarded. -/
def ReadFrom {σ : Type} (read_func : σ → Nat → σ × ReadResult) (fuel : Nat)
    (s : σ) (_out_buffer : List Char) (max_size : Int) :
    Option (σ × List Char × Bool) :=
  ReadFromLoop read_func fuel s [] max_size

/-- `blaze_util::WriteTo` (`file.cc` lines 115–122).  The write primitive is
state-passing; `δ` is the type of the data buffer.  One call is made with the
full buffer and requested size; the result is the primitive's new state and
the boolean the C++ function returns. -/
def WriteTo {σ δ : Type} (write_func : σ → δ → Nat → σ × Int) (s : σ)
    (data : δ) (size : Nat) : σ × Bool :=
  let r := write_func s data size
  (r.1, if r.2 = -1 then false else decide (r.2 = (size : Int)))

/-- A directory entry as presented by the injected enumeration primitive
(`ForEachDirectoryEntry`): a path together with the is-directory flag, and,
for a directory, the child entries its own enumeration would report.
Each direct child occurs exactly once, in enumeration order. -/
inductive FsEntry where
  | file : String → FsEntry
  | dir : String → List FsEntry → FsEntry

/-- `DirectoryTreeWalker` (`file.cc` lines 161–180): `Consume` on a file
appends it to the accumulator, on a directory recurses into its children;
`Walk` feeds every entry the enumeration primitive reports to `Consume`. -/
def walkEntries : List FsEntry → List String → List String
  | [], files => files
  | .file p :: rest, files => walkEntries rest (files ++ [p])
  | .dir _ children :: rest, files => walkEntries rest (walkEntries children files)

/-- `blaze_util::GetAllFilesUnder` (`file.cc` lines 182–190): walk the entries
the enumeration primitive reports under the root path, appending to `result`. -/
def GetAllFilesUnder (entries : List FsEntry) (result : List String) : List String :=
  walkEntries entries result

/-- All entries reachable by recursive descent, as `(path, is_directory)`
pairs in depth-first enumeration order (spec-side description). -/
def allEntries : List FsEntry → List (String × Bool)
  | [] => []
  | .file p :: rest => (p, false) :: allEntries rest
  | .dir p children :: rest => (p, true) :: (allEntries children ++ allEntries rest)

/-- Spec-side segmentation of a character list: its maximal nonempty runs of
non-`/` characters.  `cur` carries the currently open run, reversed. -/
def splitRuns : List Char → List Char → List (List Char)
  | [], cur => if cur = [] then [] else [cur.reverse]
  | c :: rest, cur =>
      if c = '/' then (if cur = [] then [] else [cur.reverse]) ++ splitRuns rest []
      else splitRuns rest (c :: cur)

/-- Spec-side check for two consecutive `/` characters. -/
def hasDoubledSlash : List Char → Bool
  | [] => false
  | [_] => false
  | a :: b :: rest => (a == '/' && b == '/') || hasDoubledSlash (b :: rest)

/-- The characters contributed by all segments after the first:
each is preceded by one `/`. -/
def tailChars : List (List Char) → List Char
  | [] => []
  | s :: rest => '/' :: s ++ tailChars rest

/-- A well-formed retained segment: nonempty, free of `/` and NUL,
and not one of the special segments `.` and `..`. -/
def goodSeg (s : List Char) : Prop :=
  s ≠ [] ∧ '/' ∉ s ∧ '\x00' ∉ s ∧ s ≠ ['.'] ∧ s ≠ ['.', '.']

theorem applySegment_good {segs : List (List Char)} {seg : List Char}
    (hsegs : ∀ s ∈ segs, goodSeg s) (h1 : seg ≠ []) (h2 : '/' ∉ seg)
    (h3 : '\x00' ∉ seg) : ∀ s ∈ applySegment segs seg, goodSeg s := by
  intro s hs
  by_cases hdd : seg = ['.', '.']
  · rw [applySegment, if_pos hdd] at hs
    exact hsegs s (List.mem_of_mem_dropLast hs)
  · by_cases hd : seg = ['.']
    · rw [applySegment, if_neg hdd, if_pos hd] at hs
      exact hsegs s hs
    · rw [applySegment, if_neg hdd, if_neg hd] at hs
      rcases List.mem_append.1 hs with h | h
      · exact hsegs s h
      · rcases List.mem_singleton.1 h with rfl
        exact ⟨h1, h2, h3, hd, hdd⟩

theorem emitSegment_good {segs : List (List Char)} {cur : List Char}
    (hsegs : ∀ s ∈ segs, goodSeg s) (hc1 : '/' ∉ cur) (hc2 : '\x00' ∉ cur) :
    ∀ s ∈ (if cur = [] then segs else applySegment segs cur.reverse), goodSeg s := by
  by_cases h : cur = []
  · rw [if_pos h]; exact hsegs
  · rw [if_neg h]
    exact applySegment_good hsegs (by simpa using h) (by simpa using hc1)
      (by simpa using hc2)

theorem parseSegments_good :
    ∀ (cs cur : List Char) (segs : List (List Char)),
      (∀ s ∈ segs, goodSeg s) → '/' ∉ cur → '\x00' ∉ cur →
      ∀ s ∈ parseSegments cs cur segs, goodSeg s
  | [], cur, segs, hsegs, hc1, hc2 => by
      rw [parseSegments]
      exact emitSegment_good hsegs hc1 hc2
  | c :: rest, cur, segs, hsegs, hc1, hc2 => by
      rw [parseSegments]
      by_cases hnul : c = '\x00'
      · rw [if_pos hnul]
        exact emitSegment_good hsegs hc1 hc2
      · rw [if_neg hnul]
        by_cases hsl : c = '/'
        · rw [if_pos hsl]
          exact parseSegments_good rest [] _ (emitSegment_good hsegs hc1 hc2)
            (by simp) (by simp)
        · rw [if_neg hsl]
          refine parseSegments_good rest (c :: cur) segs hsegs ?_ ?_
          · intro hmem
            rcases List.mem_cons.1 hmem with h | h
            · exact hsl h.symm
            · exact hc1 h
          · intro hmem
            rcases List.mem_cons.1 hmem with h | h
            · exact hnul h.symm
            · exact hc2 h

theorem joinLoop_eq : ∀ (segs : List (List Char)) (acc : List Char),
    joinLoop segs acc = acc ++ tailChars segs
  | [], acc => by simp [joinLoop, tailChars]
  | s :: rest, acc => by
      rw [joinLoop, joinLoop_eq rest, tailChars]
      simp

theorem joinSegments_eq (isAbs : Bool) (s : List Char) (rest : List (List Char)) :
    joinSegments isAbs (s :: rest) = (if isAbs then ['/'] else []) ++ s ++ tailChars rest := by
  rw [joinSegments, joinLoop_eq]

theorem hds_append : ∀ (s l : List Char), '/' ∉ s →
    hasDoubledSlash (s ++ l) = hasDoubledSlash l
  | [], _, _ => rfl
  | [a], l, h => by
      have ha : (a == '/') = false := by
        simp only [beq_eq_false_iff_ne, ne_eq]
        intro hh
        exact h (by simp [hh])
      cases l with
      | nil => rfl
      | cons b t => simp [hasDoubledSlash, ha]
  | a :: b :: s', l, h => by
      have ha : (a == '/') = false := by
        simp only [beq_eq_false_iff_ne, ne_eq]
        intro hh
        exact h (by simp [hh])
      have step : hasDoubledSlash ((a :: b :: s') ++ l) = hasDoubledSlash ((b :: s') ++ l) := by
        simp [hasDoubledSlash, ha]
      rw [step, hds_append (b :: s') l (fun hm => h (List.mem_cons_of_mem a hm))]

theorem hds_cons_slash : ∀ (l : List Char), (∀ b, l.head? = some b → b ≠ '/') →
    hasDoubledSlash ('/' :: l) = hasDoubledSlash l
  | [], _ => rfl
  | b :: t, h => by
      have hb : (b == '/') = false := by
        simp only [beq_eq_false_iff_ne, ne_eq]
        exact h b rfl
      simp [hasDoubledSlash, hb]

theorem hds_seg_tail : ∀ (rest : List (List Char)) (s : List Char), s ≠ [] → '/' ∉ s →
    (∀ t ∈ rest, t ≠ [] ∧ '/' ∉ t) →
    hasDoubledSlash (s ++ tailChars rest) = false
  | [], s, _, hs2, _ => by
      rw [tailChars, hds_append s [] hs2]
      rfl
  | t :: r', s, _, hs2, hrest => by
      rw [tailChars]
      have hhead : ∀ b, (t ++ tailChars r').head? = some b → b ≠ '/' := by
        obtain ⟨ht1, ht2⟩ := hrest t (List.mem_cons_self t r')
        obtain ⟨c, t', rfl⟩ := List.exists_cons_of_ne_nil ht1
        intro b hb
        rw [List.cons_append, List.head?_cons, Option.some_inj] at hb
        subst hb
        intro hc
        exact ht2 (by simp [hc])
      calc hasDoubledSlash (s ++ '/' :: (t ++ tailChars r'))
          = hasDoubledSlash ('/' :: (t ++ tailChars r')) := hds_append s _ hs2
        _ = hasDoubledSlash (t ++ tailChars r') := hds_cons_slash _ hhead
        _ = false := hds_seg_tail r' t (hrest t (List.mem_cons_self t r')).1
              (hrest t (List.mem_cons_self t r')).2
              (fun u hu => hrest u (List.mem_cons_of_mem t hu))

theorem hds_joinSegments (isAbs : Bool) (segs : List (List Char))
    (h : ∀ s ∈ segs, s ≠ [] ∧ '/' ∉ s) :
    hasDoubledSlash (joinSegments isAbs segs) = false := by
  cases segs with
  | nil => rfl
  | cons s rest =>
      rw [joinSegments_eq]
      obtain ⟨hs1, hs2⟩ := h s (List.mem_cons_self s rest)
      have hrest : ∀ t ∈ rest, t ≠ [] ∧ '/' ∉ t :=
        fun t ht => h t (List.mem_cons_of_mem s ht)
      cases isAbs with
      | false =>
          simpa using hds_seg_tail rest s hs1 hs2 hrest
      | true =>
          have hhead : ∀ b, (s ++ tailChars rest).head? = some b → b ≠ '/' := by
            obtain ⟨c, s', rfl⟩ := List.exists_cons_of_ne_nil hs1
            intro b hb
            rw [List.cons_append, List.head?_cons, Option.some_inj] at hb
            subst hb
            intro hc
            exact hs2 (by simp [hc])
          have : (['/'] ++ s ++ tailChars rest) = '/' :: (s ++ tailChars rest) := by simp
          rw [if_pos rfl, this, hds_cons_slash _ hhead]
          exact hds_seg_tail rest s hs1 hs2 hrest

theorem head_joinSegments_abs (s : List Char) (rest : List (List Char)) :
    (joinSegments true (s :: rest)).head? = some '/' := by
  rw [joinSegments_eq]
  rfl

theorem head_joinSegments_rel (s : List Char) (rest : List (List Char)) (hs : s ≠ []) :
    (joinSegments false (s :: rest)).head? = s.head? := by
  rw [joinSegments_eq]
  simp only [if_neg (Bool.false_ne_true), List.nil_append]
  exact List.head?_append_of_ne_nil s hs

theorem mem_of_getLast?_eq {α : Type} {l : List α} {a : α}
    (h : l.getLast? = some a) : a ∈ l := by
  have hmem : a ∈ l.getLast? := by rw [h]; rfl
  obtain ⟨hne, rfl⟩ := List.mem_getLast?_eq_getLast hmem
  exact List.getLast_mem hne

theorem getLast_seg_tail : ∀ (rest : List (List Char)) (s : List Char), s ≠ [] → '/' ∉ s →
    (∀ t ∈ rest, t ≠ [] ∧ '/' ∉ t) →
    ∀ c, (s ++ tailChars rest).getLast? = some c → c ≠ '/'
  | [], s, _, hs2, _, c => by
      rw [tailChars, List.append_nil]
      intro hlast
      intro hc
      subst hc
      exact hs2 (mem_of_getLast?_eq hlast)
  | t :: r', s, _, hs2, hrest, c => by
      obtain ⟨ht1, ht2⟩ := hrest t (List.mem_cons_self t r')
      have hx : t ++ tailChars r' ≠ [] := by
        obtain ⟨d, t', rfl⟩ := List.exists_cons_of_ne_nil ht1
        simp
      have hsplit : s ++ tailChars (t :: r') = (s ++ ['/']) ++ (t ++ tailChars r') := by
        rw [tailChars]
        simp
      rw [hsplit, List.getLast?_append_of_ne_nil _ hx]
      exact getLast_seg_tail r' t ht1 ht2 (fun u hu => hrest u (List.mem_cons_of_mem t hu)) c

theorem getLast_joinSegments (isAbs : Bool) (s : List Char) (rest : List (List Char))
    (h : ∀ u ∈ s :: rest, u ≠ [] ∧ '/' ∉ u) :
    ∀ c, (joinSegments isAbs (s :: rest)).getLast? = some c → c ≠ '/' := by
  intro c hlast
  rw [joinSegments_eq] at hlast
  obtain ⟨hs1, hs2⟩ := h s (List.mem_cons_self s rest)
  have hrest : ∀ t ∈ rest, t ≠ [] ∧ '/' ∉ t :=
    fun t ht => h t (List.mem_cons_of_mem s ht)
  have hx : s ++ tailChars rest ≠ [] := by
    obtain ⟨d, s', rfl⟩ := List.exists_cons_of_ne_nil hs1
    simp
  rw [List.append_assoc, List.getLast?_append_of_ne_nil _ hx] at hlast
  exact getLast_seg_tail rest s hs1 hs2 hrest c hlast

theorem splitRuns_append_run : ∀ (s l cur : List Char), '/' ∉ s →
    splitRuns (s ++ l) cur = splitRuns l (s.reverse ++ cur)
  | [], l, cur, _ => by simp
  | a :: s', l, cur, h => by
      have ha : a ≠ '/' := fun hh => h (by simp [hh])
      rw [List.cons_append, splitRuns, if_neg ha, splitRuns_append_run s' l (a :: cur)
        (fun hm => h (List.mem_cons_of_mem a hm))]
      simp

theorem splitRuns_tail : ∀ (rest : List (List Char)) (cur : List Char), cur ≠ [] → '/' ∉ cur →
    (∀ t ∈ rest, t ≠ [] ∧ '/' ∉ t) →
    splitRuns (tailChars rest) cur = cur.reverse :: rest
  | [], cur, hc, _, _ => by
      rw [tailChars]
      show (if cur = [] then [] else [cur.reverse]) = cur.reverse :: []
      rw [if_neg hc]
  | t :: r', cur, hc, _, hrest => by
      obtain ⟨ht1, ht2⟩ := hrest t (List.mem_cons_self t r')
      rw [tailChars, List.cons_append, splitRuns, if_pos rfl, if_neg hc,
        splitRuns_append_run t (tailChars r') [] ht2, List.append_nil,
        splitRuns_tail r' t.reverse (by simpa using ht1) (by simpa using ht2)
          (fun u hu => hrest u (List.mem_cons_of_mem t hu))]
      simp

theorem splitRuns_joinSegments (isAbs : Bool) (segs : List (List Char))
    (h : ∀ s ∈ segs, s ≠ [] ∧ '/' ∉ s) :
    splitRuns (joinSegments isAbs segs) [] = segs := by
  cases segs with
  | nil => cases isAbs <;> rfl
  | cons s rest =>
      obtain ⟨hs1, hs2⟩ := h s (List.mem_cons_self s rest)
      have hrest : ∀ t ∈ rest, t ≠ [] ∧ '/' ∉ t :=
        fun t ht => h t (List.mem_cons_of_mem s ht)
      rw [joinSegments_eq]
      cases isAbs with
      | false =>
          rw [if_neg (Bool.false_ne_true), List.nil_append,
            splitRuns_append_run s (tailChars rest) [] hs2, List.append_nil,
            splitRuns_tail rest s.reverse (by simpa using hs1) (by simpa using hs2) hrest]
          simp
      | true =>
          have hform : (['/'] ++ s ++ tailChars rest) = '/' :: (s ++ tailChars rest) := by simp
          rw [if_pos rfl, hform, splitRuns, if_pos rfl, if_pos rfl,
            splitRuns_append_run s (tailChars rest) [] hs2, List.append_nil,
            splitRuns_tail rest s.reverse (by simpa using hs1) (by simpa using hs2) hrest]
          simp

theorem parseSegments_eq_foldl : ∀ (cs cur : List Char) (segs : List (List Char)),
    '\x00' ∉ cs →
    parseSegments cs cur segs = (splitRuns cs cur).foldl applySegment segs
  | [], cur, segs, _ => by
      rw [parseSegments]
      show _ = List.foldl applySegment segs (if cur = [] then [] else [cur.reverse])
      by_cases h : cur = []
      · rw [if_pos h, if_pos h]
        rfl
      · rw [if_neg h, if_neg h]
        rfl
  | c :: rest, cur, segs, hnul => by
      have hc : c ≠ '\x00' := fun hh => hnul (by simp [hh])
      have hrest : '\x00' ∉ rest := fun hm => hnul (List.mem_cons_of_mem c hm)
      rw [parseSegments, if_neg hc, splitRuns]
      by_cases hsl : c = '/'
      · rw [if_pos hsl, if_pos hsl, List.foldl_append,
          parseSegments_eq_foldl rest [] _ hrest]
        by_cases h : cur = []
        · rw [if_pos h, if_pos h]
          rfl
        · rw [if_neg h, if_neg h]
          rfl
      · rw [if_neg hsl, if_neg hsl, parseSegments_eq_foldl rest (c :: cur) segs hrest]

theorem foldl_applySegment_push (segs : List (List Char))
    (h : ∀ s ∈ segs, s ≠ ['.'] ∧ s ≠ ['.', '.']) :
    ∀ acc, segs.foldl applySegment acc = acc ++ segs := by
  induction segs with
  | nil => intro acc; simp
  | cons s rest ih =>
      intro acc
      obtain ⟨hd, hdd⟩ := h s (List.mem_cons_self s rest)
      rw [List.foldl_cons, applySegment, if_neg hdd, if_neg hd,
        ih (fun t ht => h t (List.mem_cons_of_mem s ht))]
      simp

theorem noNul_tailChars (rest : List (List Char))
    (h : ∀ t ∈ rest, '\x00' ∉ t) : '\x00' ∉ tailChars rest := by
  induction rest with
  | nil => simp [tailChars]
  | cons t r' ih =>
      rw [tailChars]
      intro hmem
      rcases List.mem_append.1 hmem with hm | hm
      · rcases List.mem_cons.1 hm with hm' | hm'
        · exact absurd hm'.symm (by decide)
        · exact h t (List.mem_cons_self t r') hm'
      · exact ih (fun u hu => h u (List.mem_cons_of_mem t hu)) hm

theorem noNul_joinSegments (isAbs : Bool) (segs : List (List Char))
    (h : ∀ s ∈ segs, '\x00' ∉ s) : '\x00' ∉ joinSegments isAbs segs := by
  cases segs with
  | nil => simp [joinSegments]
  | cons s rest =>
      rw [joinSegments_eq]
      intro hmem
      rcases List.mem_append.1 hmem with hm | hm
      · rcases List.mem_append.1 hm with hm' | hm'
        · cases isAbs with
          | false => simp at hm'
          | true =>
              rw [if_pos rfl] at hm'
              rcases List.mem_singleton.1 hm' with hh
              exact absurd hh (by decide)
        · exact h s (List.mem_cons_self s rest) hm'
      · exact noNul_tailChars rest (fun u hu => h u (List.mem_cons_of_mem s hu)) hm

theorem normalizeChars_nil_segs (c : Char) (rest : List Char)
    (h : parseSegments (c :: rest) [] [] = []) :
    normalizeChars (c :: rest) = if c = '/' then ['/'] else [] := by
  show (if parseSegments (c :: rest) [] [] = [] ∧ c = '/' then ['/']
        else joinSegments (c == '/') (parseSegments (c :: rest) [] [])) = _
  rw [h]
  by_cases hsl : c = '/'
  · rw [if_pos ⟨rfl, hsl⟩, if_pos hsl]
  · rw [if_neg (fun hh => hsl hh.2), if_neg hsl]
    rfl

theorem normalizeChars_cons_segs (c : Char) (rest : List Char) (s₀ : List Char)
    (srest : List (List Char)) (h : parseSegments (c :: rest) [] [] = s₀ :: srest) :
    normalizeChars (c :: rest) = joinSegments (c == '/') (s₀ :: srest) := by
  show (if parseSegments (c :: rest) [] [] = [] ∧ c = '/' then ['/']
        else joinSegments (c == '/') (parseSegments (c :: rest) [] [])) = _
  rw [h, if_neg (fun hh => List.cons_ne_nil s₀ srest hh.1)]

theorem joinSegments_head (isAbs : Bool) (s : List Char) (rest : List (List Char))
    (hs : s ≠ []) (hs2 : '/' ∉ s) :
    ∃ d J', joinSegments isAbs (s :: rest) = d :: J' ∧ ((d = '/') ↔ (isAbs = true)) := by
  rw [joinSegments_eq]
  cases isAbs with
  | true =>
      refine ⟨'/', s ++ tailChars rest, ?_, by simp⟩
      simp
  | false =>
      obtain ⟨e, s', rfl⟩ := List.exists_cons_of_ne_nil hs
      have he : e ≠ '/' := fun hh => hs2 (List.mem_cons.2 (Or.inl hh.symm))
      refine ⟨e, s' ++ tailChars rest, by simp, by simp [he]⟩

theorem goodSeg_ne_dots {s : List Char} (h : goodSeg s) : s ≠ ['.'] ∧ s ≠ ['.', '.'] :=
  ⟨h.2.2.2.1, h.2.2.2.2⟩

theorem goodSeg_shape {s : List Char} (h : goodSeg s) : s ≠ [] ∧ '/' ∉ s :=
  ⟨h.1, h.2.1⟩

theorem parse_of_joinSegments (isAbs : Bool) (segs : List (List Char))
    (hgood : ∀ s ∈ segs, goodSeg s) :
    parseSegments (joinSegments isAbs segs) [] [] = segs := by
  have hnul : '\x00' ∉ joinSegments isAbs segs :=
    noNul_joinSegments isAbs segs (fun s hs => (hgood s hs).2.2.1)
  rw [parseSegments_eq_foldl _ [] [] hnul,
    splitRuns_joinSegments isAbs segs (fun s hs => goodSeg_shape (hgood s hs)),
    foldl_applySegment_push segs (fun s hs => goodSeg_ne_dots (hgood s hs))]
  simp

/-- **C3**: `NormalizePath` is idempotent on the underlying character lists. -/
theorem normalizeChars_idem (l : List Char) :
    normalizeChars (normalizeChars l) = normalizeChars l := by
  cases l with
  | nil => rfl
  | cons c rest =>
      cases hsegs : parseSegments (c :: rest) [] [] with
      | nil =>
          rw [normalizeChars_nil_segs c rest hsegs]
          by_cases hsl : c = '/'
          · rw [if_pos hsl]
            decide
          · rw [if_neg hsl]
            rfl
      | cons s₀ srest =>
          have hgood : ∀ s ∈ s₀ :: srest, goodSeg s := by
            rw [← hsegs]
            exact parseSegments_good (c :: rest) [] [] (by simp) (by simp) (by simp)
          rw [normalizeChars_cons_segs c rest s₀ srest hsegs]
          obtain ⟨hs1, hs2⟩ := goodSeg_shape (hgood s₀ (List.mem_cons_self s₀ srest))
          obtain ⟨d, J', hJ, hd⟩ := joinSegments_head (c == '/') s₀ srest hs1 hs2
          have hparse : parseSegments (joinSegments (c == '/') (s₀ :: srest)) [] []
              = s₀ :: srest := parse_of_joinSegments (c == '/') (s₀ :: srest) hgood
          rw [hJ] at hparse
          rw [hJ, normalizeChars_cons_segs d J' s₀ srest hparse, ← hJ]
          have : (d == '/') = (c == '/') := by
            cases hab : (c == '/') with
            | true =>
                have hdd : d = '/' := hd.2 hab
                rw [hdd]
                rfl
            | false =>
                have hdd : d ≠ '/' := by
                  intro hh
                  have hct := hd.1 hh
                  rw [hab] at hct
                  exact Bool.false_ne_true hct
                simp [hdd]
          rw [this]

/-- **C1**: for every input string `p`, `NormalizePath p` contains no `.` or
`..` segment (its maximal non-`/` runs are never `.` or `..`), never contains
two consecutive `/` characters, begins with `/` if and only if `p` begins
with `/`, and never ends with a trailing `/` unless the whole result is
exactly `"/"`. -/
theorem c1_normalized_path_invariants (p : String) :
    (∀ s ∈ splitRuns (NormalizePath p).data [], s ≠ ['.'] ∧ s ≠ ['.', '.']) ∧
    hasDoubledSlash (NormalizePath p).data = false ∧
    ((NormalizePath p).data.head? = some '/' ↔ p.data.head? = some '/') ∧
    (NormalizePath p ≠ "/" → (NormalizePath p).data.getLast? ≠ some '/') := by
  have hdata : (NormalizePath p).data = normalizeChars p.data := rfl
  cases hp : p.data with
  | nil =>
      rw [hdata, hp]
      have h0 : normalizeChars ([] : List Char) = [] := rfl
      have hsr : splitRuns ([] : List Char) [] = [] := by decide
      rw [h0, hsr]
      exact ⟨by simp, rfl, by simp, fun _ => by simp⟩
  | cons c rest =>
      have hstr : NormalizePath p = ⟨normalizeChars (c :: rest)⟩ := by
        show (⟨normalizeChars p.data⟩ : String) = _
        rw [hp]
      cases hsegs : parseSegments (c :: rest) [] [] with
      | nil =>
          rw [hdata, hp, normalizeChars_nil_segs c rest hsegs]
          by_cases hsl : c = '/'
          · rw [if_pos hsl]
            have hsr : splitRuns ['/'] [] = [] := by decide
            refine ⟨by rw [hsr]; simp, by decide, ?_, ?_⟩
            · rw [hsl]
              simp
            · intro hne
              exfalso
              apply hne
              rw [hstr, normalizeChars_nil_segs c rest hsegs, if_pos hsl]
          · rw [if_neg hsl]
            have hsr : splitRuns ([] : List Char) [] = [] := by decide
            refine ⟨by rw [hsr]; simp, rfl, ?_, fun _ => by simp⟩
            simp [hsl]
      | cons s₀ srest =>
          have hgood : ∀ s ∈ s₀ :: srest, goodSeg s := by
            rw [← hsegs]
            exact parseSegments_good (c :: rest) [] [] (by simp) (by simp) (by simp)
          have hshape : ∀ s ∈ s₀ :: srest, s ≠ [] ∧ '/' ∉ s :=
            fun s hs => goodSeg_shape (hgood s hs)
          rw [hdata, hp, normalizeChars_cons_segs c rest s₀ srest hsegs]
          obtain ⟨hs1, hs2⟩ := hshape s₀ (List.mem_cons_self s₀ srest)
          obtain ⟨d, J', hJ, hd⟩ := joinSegments_head (c == '/') s₀ srest hs1 hs2
          refine ⟨?_, hds_joinSegments (c == '/') (s₀ :: srest) hshape, ?_, ?_⟩
          · rw [splitRuns_joinSegments (c == '/') (s₀ :: srest) hshape]
            exact fun s hs => goodSeg_ne_dots (hgood s hs)
          · rw [hJ]
            simp only [List.head?_cons, Option.some_inj]
            rw [hd]
            simp
          · intro _ hlast
            exact getLast_joinSegments (c == '/') s₀ srest hshape '/' hlast rfl

/-- **C3**: `NormalizePath` is idempotent: for every input string `p`,
`NormalizePath (NormalizePath p) = NormalizePath p`. -/
theorem c3_normalize_idempotent (p : String) :
    NormalizePath (NormalizePath p) = NormalizePath p :=
  congrArg String.mk (normalizeChars_idem p.data)

/-- **C2**: `NormalizePath` processes segments left to right (the parse is the
left fold of `applySegment` over the maximal non-`/` runs); a `..` segment pops
the last retained segment when one exists and is silently discarded on an
empty stack, a `.` segment is discarded, any other segment is pushed; and
`NormalizePath "/.." = "/"`, `NormalizePath "a/../../b" = "b"`. -/
theorem c2_segment_rules :
    (∀ cs, '\x00' ∉ cs →
        parseSegments cs [] [] = (splitRuns cs []).foldl applySegment []) ∧
    (∀ segs : List (List Char), segs ≠ [] →
        applySegment segs ['.', '.'] = segs.dropLast) ∧
    applySegment [] ['.', '.'] = [] ∧
    (∀ segs, applySegment segs ['.'] = segs) ∧
    (∀ segs s, s ≠ ['.'] → s ≠ ['.', '.'] → applySegment segs s = segs ++ [s]) ∧
    NormalizePath "/.." = "/" ∧ NormalizePath "a/../../b" = "b" := by
  refine ⟨fun cs h => parseSegments_eq_foldl cs [] [] h, ?_, by decide, ?_, ?_,
    by decide, by decide⟩
  · intro segs _
    rw [applySegment, if_pos rfl]
  · intro segs
    rw [applySegment, if_neg (by decide), if_pos rfl]
  · intro segs s h1 h2
    rw [applySegment, if_neg h2, if_neg h1]

theorem c2_segment_rules_witness :
    applySegment [['a'], ['b']] ['.', '.'] = [['a']] ∧
    applySegment [['a']] ['.'] = [['a']] ∧
    applySegment [['a']] ['b'] = [['a']] ++ [['b']] ∧
    parseSegments ['a', '/', 'b'] [] [] = (splitRuns ['a', '/', 'b'] []).foldl applySegment [] :=
  ⟨(c2_segment_rules.2.1 [['a'], ['b']] (by decide)).trans (by decide),
   c2_segment_rules.2.2.2.1 [['a']],
   c2_segment_rules.2.2.2.2.1 [['a']] ['b'] (by decide) (by decide),
   c2_segment_rules.1 ['a', '/', 'b'] (by decide)⟩

/-- **C10**: `NormalizePath` can return the empty string for non-empty input:
whenever a non-empty input does not begin with `/` and all its segments
cancel (the retained-segment stack ends empty), the result is `""`;
in particular `NormalizePath "." = ""` and `NormalizePath "a/.." = ""`. -/
theorem c10_empty_result (p : String) (h1 : p ≠ "") (h2 : p.data.head? ≠ some '/')
    (h3 : parseSegments p.data [] [] = []) :
    NormalizePath p = "" ∧ NormalizePath "." = "" ∧ NormalizePath "a/.." = "" := by
  refine ⟨?_, by decide, by decide⟩
  cases hp : p.data with
  | nil => exact absurd (String.ext hp) h1
  | cons c rest =>
      rw [hp] at h2 h3
      have hc : c ≠ '/' := by
        intro hh
        exact h2 (by rw [hh]; rfl)
      have : NormalizePath p = ⟨normalizeChars (c :: rest)⟩ := by
        show (⟨normalizeChars p.data⟩ : String) = _
        rw [hp]
      rw [this, normalizeChars_nil_segs c rest h3, if_neg hc]

theorem c10_empty_result_witness :
    NormalizePath "." = "" ∧ NormalizePath "." = "" ∧ NormalizePath "a/.." = "" :=
  c10_empty_result "." (by decide) (by decide) (by decide)

/-- **C8**: the case rules of `JoinPath`: empty `a` returns `b`; `a` ending in
`/` with `b` starting with `/` drops `b`'s leading slash; `a` ending in `/`
with `b` not starting with `/` concatenates directly; non-empty `a` not ending
in `/` with `b` not starting with `/` inserts a single `/`; and the quoted
examples, including `JoinPath "foo" "/bar" = "foo/bar"`. -/
theorem c8_joinpath_rules :
    (∀ b, JoinPath "" b = b) ∧
    (∀ a b : String, a.data.getLast? = some '/' → b.data.head? = some '/' →
        JoinPath a b = a ++ ⟨b.data.tail⟩) ∧
    (∀ a b : String, a.data.getLast? = some '/' → b.data.head? ≠ some '/' →
        JoinPath a b = a ++ b) ∧
    (∀ a b : String, a ≠ "" → a.data.getLast? ≠ some '/' → b.data.head? ≠ some '/' →
        JoinPath a b = a ++ "/" ++ b) ∧
    JoinPath "foo/" "/bar" = "foo/bar" ∧
    JoinPath "foo" "bar" = "foo/bar" ∧
    JoinPath "foo" "/bar" = "foo/bar" := by
  have hne : ∀ a : String, a.data.getLast? = some '/' → a ≠ "" := by
    intro a hl hh
    rw [hh] at hl
    exact absurd hl (by decide)
  refine ⟨?_, ?_, ?_, ?_, by decide, by decide, by decide⟩
  · intro b
    unfold JoinPath
    rw [if_pos rfl]
  · intro a b hl hh
    unfold JoinPath
    rw [if_neg (hne a hl), if_pos hl, if_pos hh]
  · intro a b hl hh
    unfold JoinPath
    rw [if_neg (hne a hl), if_pos hl, if_neg hh]
  · intro a b ha hl hh
    unfold JoinPath
    rw [if_neg ha, if_neg hl, if_neg hh]

theorem c8_joinpath_rules_witness :
    JoinPath "a/" "/b" = "a/" ++ ⟨("/b" : String).data.tail⟩ ∧
    JoinPath "a/" "b" = "a/" ++ "b" ∧
    JoinPath "a" "b" = "a" ++ "/" ++ "b" :=
  ⟨c8_joinpath_rules.2.1 "a/" "/b" (by decide) (by decide),
   c8_joinpath_rules.2.2.1 "a/" "b" (by decide) (by decide),
   c8_joinpath_rules.2.2.2.1 "a" "b" (by decide) (by decide) (by decide)⟩

theorem hds_append_boundary : ∀ (x y : List Char), hasDoubledSlash x = false →
    hasDoubledSlash y = false → (x.getLast? = some '/' → y.head? ≠ some '/') →
    hasDoubledSlash (x ++ y) = false
  | [], y, _, hy, _ => hy
  | [a], y, _, hy, hbd => by
      cases y with
      | nil => rfl
      | cons b t =>
          have hab : ¬(a = '/' ∧ b = '/') := by
            rintro ⟨rfl, rfl⟩
            exact hbd rfl rfl
          have : (a == '/' && b == '/') = false := by
            rcases not_and_or.1 hab with h | h <;> simp [h]
          simpa [hasDoubledSlash, this] using hy
  | a :: b :: x', y, hx, hy, hbd => by
      rw [hasDoubledSlash, Bool.or_eq_false_iff] at hx
      obtain ⟨h1, h2⟩ := hx
      have hbd' : (b :: x').getLast? = some '/' → y.head? ≠ some '/' := by
        intro h
        exact hbd (by rw [List.getLast?_cons_cons]; exact h)
      have hrec := hds_append_boundary (b :: x') y h2 hy hbd'
      rw [List.cons_append] at hrec
      rw [List.cons_append, List.cons_append, hasDoubledSlash, h1, Bool.false_or]
      rw [← List.cons_append]
      exact hrec

/-- **C9 counterexample**: `JoinPath "foo" "/bar"` evaluates to `"foo/bar"`,
which contains no doubled `/` — the claimed doubled separator at the junction
does not occur (a doubled separator would need `a` to end in `/`, and that
case strips `b`'s leading slash instead). -/
theorem c9_counterexample :
    JoinPath "foo" "/bar" = "foo/bar" ∧
    hasDoubledSlash (JoinPath "foo" "/bar").data = false := by decide

/-- **C9 (amended)**: for every non-empty `a` that does not end with `/` and
every `b` that starts with `/`, `JoinPath a b` concatenates `a` and `b`
directly, and no doubled `/` separator arises at the junction: if neither
`a` nor `b` already contains a doubled `/`, neither does the result.
In particular `JoinPath "foo" "/bar" = "foo/bar"` with a single separator. -/
theorem c9_direct_concat_no_doubling (a b : String) (ha : a ≠ "")
    (hl : a.data.getLast? ≠ some '/') (hh : b.data.head? = some '/') :
    JoinPath a b = a ++ b ∧
    (hasDoubledSlash a.data = false → hasDoubledSlash b.data = false →
        hasDoubledSlash (JoinPath a b).data = false) ∧
    JoinPath "foo" "/bar" = "foo/bar" := by
  have hjoin : JoinPath a b = a ++ b := by
    unfold JoinPath
    rw [if_neg ha, if_neg hl, if_pos hh]
  refine ⟨hjoin, ?_, by decide⟩
  intro hda hdb
  rw [hjoin, String.data_append]
  exact hds_append_boundary a.data b.data hda hdb (fun hcon _ => hl hcon)

theorem c9_direct_concat_no_doubling_witness :
    JoinPath "foo" "/bar" = "foo" ++ "/bar" ∧
    hasDoubledSlash (JoinPath "foo" "/bar").data = false :=
  ⟨(c9_direct_concat_no_doubling "foo" "/bar" (by decide) (by decide) (by decide)).1,
   (c9_direct_concat_no_doubling "foo" "/bar" (by decide) (by decide) (by decide)).2.1
     (by decide) (by decide)⟩

theorem walkEntries_spec : ∀ (l : List FsEntry) (files : List String),
    walkEntries l files
      = files ++ ((allEntries l).filter (fun e => !e.2)).map Prod.fst
  | [], files => by simp [walkEntries, allEntries]
  | .file p :: rest, files => by
      rw [walkEntries, allEntries, walkEntries_spec rest]
      simp
  | .dir p children :: rest, files => by
      rw [walkEntries, allEntries, walkEntries_spec children, walkEntries_spec rest]
      simp

/-- **C4**: for every directory tree presented by the enumeration primitive,
`GetAllFilesUnder` appends to the accumulator exactly the non-directory
entries reachable by recursive descent, in depth-first enumeration order;
no directory path is appended and the prior contents of the accumulator are
preserved unchanged in front.  The spec's example tree (directories `a`,
`a/b`, files `a/f1`, `a/b/f2`) yields exactly `["a/f1", "a/b/f2"]`. -/
theorem c4_walker_collects_files (entries : List FsEntry) (result : List String) :
    GetAllFilesUnder entries result
      = result ++ ((allEntries entries).filter (fun e => !e.2)).map Prod.fst ∧
    GetAllFilesUnder
      [FsEntry.dir "a" [FsEntry.file "a/f1", FsEntry.dir "a/b" [FsEntry.file "a/b/f2"]]] []
      = ["a/f1", "a/b/f2"] :=
  ⟨walkEntries_spec entries result, by simp [GetAllFilesUnder, walkEntries]⟩

theorem readFromLoop_none {σ : Type} (f : σ → Nat → σ × ReadResult)
    (t : σ) (content : List Char) (m : Int) :
    ReadFromLoop f 0 t content m = none := rfl

theorem readFromLoop_length {σ : Type} (f : σ → Nat → σ × ReadResult)
    (hwb : ∀ t n, resLen (f t n).2 ≤ n) :
    ∀ (fuel : Nat) (t : σ) (content : List Char) (m : Int), 0 < m →
      ∀ t' content' ok, ReadFromLoop f fuel t content m = some (t', content', ok) →
        content'.length ≤ content.length + m.toNat
  | 0, t, content, m => by
      intro _ t' c' ok h
      rw [readFromLoop_none] at h
      exact Option.noConfusion h
  | fuel + 1, t, content, m => by
      intro hm t' c' ok h
      rw [ReadFromLoop] at h
      cases hf : f t (nextRequest m) with
      | mk s' res =>
          rw [hf] at h
          cases res with
          | err retry =>
              cases retry with
              | true =>
                  exact readFromLoop_length f hwb fuel s' content m hm t' c' ok h
              | false =>
                  simp only [Option.some_inj, Prod.mk.injEq] at h
                  obtain ⟨-, h2, -⟩ := h
                  subst h2
                  omega
          | bytes bs =>
              cases bs with
              | nil =>
                  simp only [Option.some_inj, Prod.mk.injEq] at h
                  obtain ⟨-, h2, -⟩ := h
                  subst h2
                  omega
              | cons b bs' =>
                  dsimp only at h
                  rw [if_pos hm] at h
                  by_cases hlt : ((b :: bs').length : Int) < m
                  · rw [if_pos hlt] at h
                    have hrec := readFromLoop_length f hwb fuel s'
                      (content ++ b :: bs') (m - (b :: bs').length) (by omega)
                      t' c' ok h
                    rw [List.length_append] at hrec
                    omega
                  · rw [if_neg hlt] at h
                    simp only [Option.some_inj, Prod.mk.injEq] at h
                    obtain ⟨-, h2, -⟩ := h
                    subst h2
                    have hreq := hwb t (nextRequest m)
                    rw [hf] at hreq
                    simp only [resLen] at hreq
                    rw [nextRequest, if_pos hm] at hreq
                    have hmin : (min m 4096).toNat ≤ m.toNat :=
                      Int.toNat_le_toNat (min_le_left _ _)
                    rw [List.length_append]
                    omega

theorem readFromLoop_requests {σ : Type} (f g : σ → Nat → σ × ReadResult) (N : Int)
    (hfg : ∀ t r, (∃ m', 0 < m' ∧ m' ≤ N ∧ r = nextRequest m') → f t r = g t r) :
    ∀ (fuel : Nat) (t : σ) (content : List Char) (m : Int), 0 < m → m ≤ N →
      ReadFromLoop f fuel t content m = ReadFromLoop g fuel t content m
  | 0, _, _, _ => by
      intro _ _
      rw [readFromLoop_none, readFromLoop_none]
  | fuel + 1, t, content, m => by
      intro hm hmN
      rw [ReadFromLoop, ReadFromLoop, ← hfg t (nextRequest m) ⟨m, hm, hmN, rfl⟩]
      cases hf : f t (nextRequest m) with
      | mk s' res =>
          cases res with
          | err retry =>
              cases retry with
              | true => exact readFromLoop_requests f g N hfg fuel s' content m hm hmN
              | false => rfl
          | bytes bs =>
              cases bs with
              | nil => rfl
              | cons b bs' =>
                  dsimp only
                  rw [if_pos hm, if_pos hm]
                  by_cases hlt : ((b :: bs').length : Int) < m
                  · rw [if_pos hlt, if_pos hlt]
                    exact readFromLoop_requests f g N hfg fuel s'
                      (content ++ b :: bs') (m - (b :: bs').length) (by omega) (by omega)
                  · rw [if_neg hlt, if_neg hlt]

theorem readFromLoop_noerr {σ : Type} (f : σ → Nat → σ × ReadResult)
    (hne : ∀ t n, (f t n).2 ≠ ReadResult.err false) :
    ∀ (fuel : Nat) (t : σ) (content : List Char) (m : Int),
      ∀ t' content' ok, ReadFromLoop f fuel t content m = some (t', content', ok) →
        ok = true
  | 0, t, content, m => by
      intro t' c' ok h
      rw [readFromLoop_none] at h
      exact Option.noConfusion h
  | fuel + 1, t, content, m => by
      intro t' c' ok h
      rw [ReadFromLoop] at h
      cases hf : f t (nextRequest m) with
      | mk s' res =>
          rw [hf] at h
          cases res with
          | err retry =>
              cases retry with
              | true => exact readFromLoop_noerr f hne fuel s' content m t' c' ok h
              | false =>
                  exfalso
                  apply hne t (nextRequest m)
                  rw [hf]
          | bytes bs =>
              cases bs with
              | nil =>
                  simp only [Option.some_inj, Prod.mk.injEq] at h
                  exact h.2.2.symm
              | cons b bs' =>
                  dsimp only at h
                  by_cases h0 : 0 < m
                  · rw [if_pos h0] at h
                    by_cases hlt : ((b :: bs').length : Int) < m
                    · rw [if_pos hlt] at h
                      exact readFromLoop_noerr f hne fuel s' (content ++ b :: bs')
                        (m - (b :: bs').length) t' c' ok h
                    · rw [if_neg hlt] at h
                      simp only [Option.some_inj, Prod.mk.injEq] at h
                      exact h.2.2.symm
                  · rw [if_neg h0] at h
                    exact readFromLoop_noerr f hne fuel s' (content ++ b :: bs')
                      m t' c' ok h

/-- **C5**: `ReadFrom` first clears the output buffer (its result does not
depend on the buffer's previous contents); with a positive allowance `N` and
a primitive that never supplies more bytes than requested it appends at most
`N` bytes in total; each request it issues has size `nextRequest` of the
remaining allowance, i.e. `min 4096` of the remainder (the run is unaffected
by what the primitive would answer at any other request size); and absent a
non-retryable error every completed run returns `true`. -/
theorem c5_readfrom_bounded {σ : Type} (read_func : σ → Nat → σ × ReadResult)
    (fuel : Nat) (s : σ) (N : Int) (hN : 0 < N)
    (hwb : ∀ t n, resLen (read_func t n).2 ≤ n) :
    (∀ prior₁ prior₂ : List Char,
        ReadFrom read_func fuel s prior₁ N = ReadFrom read_func fuel s prior₂ N) ∧
    (∀ s' content ok, ReadFrom read_func fuel s [] N = some (s', content, ok) →
        content.length ≤ N.toNat) ∧
    (∀ g, (∀ t r, (∃ m', 0 < m' ∧ m' ≤ N ∧ r = nextRequest m') → read_func t r = g t r) →
        ReadFrom read_func fuel s [] N = ReadFrom g fuel s [] N) ∧
    ((∀ t n, (read_func t n).2 ≠ ReadResult.err false) →
        ∀ s' content ok, ReadFrom read_func fuel s [] N = some (s', content, ok) →
          ok = true) := by
  refine ⟨fun _ _ => rfl, ?_, ?_, ?_⟩
  · intro s' content ok h
    have := readFromLoop_length read_func hwb fuel s [] N hN s' content ok h
    simpa using this
  · intro g hfg
    exact readFromLoop_requests read_func g N hfg fuel s [] N hN le_rfl
  · intro hne s' content ok h
    exact readFromLoop_noerr read_func hne fuel s [] N s' content ok h

theorem c5_readfrom_bounded_witness :
    (List.length ['a'] ≤ (1 : Int).toNat) ∧
    ReadFrom (fun (t : Nat) (n : Nat) => (t + 1, ReadResult.bytes (List.replicate (min n 1) 'a')))
      2 0 ['x', 'y'] 1
      = ReadFrom (fun (t : Nat) (n : Nat) => (t + 1, ReadResult.bytes (List.replicate (min n 1) 'a')))
      2 0 [] 1 := by
  have hwb : ∀ (t n : Nat),
      resLen ((fun (t : Nat) (n : Nat) =>
        (t + 1, ReadResult.bytes (List.replicate (min n 1) 'a'))) t n).2 ≤ n := by
    intro t n
    simp [resLen]
  constructor
  · exact (c5_readfrom_bounded _ 2 0 1 (by decide) hwb).2.1 1 ['a'] true (by decide)
  · exact (c5_readfrom_bounded _ 2 0 1 (by decide) hwb).1 ['x', 'y'] []

/-- **C6**: when the read primitive reports `-1`, `ReadFrom` retries the call
if the error is retryable (`EINTR`/`EAGAIN`) — the loop continues with the
primitive's new state and the same buffer and allowance — and for any other
error immediately returns `false`, appending nothing further and keeping the
bytes already appended during this call. -/
theorem c6_readfrom_error_handling {σ : Type} (read_func : σ → Nat → σ × ReadResult)
    (fuel : Nat) (s : σ) (content : List Char) (max_size : Int) :
    (∀ s', read_func s (nextRequest max_size) = (s', ReadResult.err true) →
        ReadFromLoop read_func (fuel + 1) s content max_size
          = ReadFromLoop read_func fuel s' content max_size) ∧
    (∀ s', read_func s (nextRequest max_size) = (s', ReadResult.err false) →
        ReadFromLoop read_func (fuel + 1) s content max_size
          = some (s', content, false)) := by
  constructor
  · intro s' h
    rw [ReadFromLoop, h]
  · intro s' h
    rw [ReadFromLoop, h]

theorem c6_readfrom_error_handling_witness :
    ReadFromLoop (fun (t : Nat) (_ : Nat) => (t + 1, ReadResult.err true)) 3 0 ['a'] 7
      = ReadFromLoop (fun (t : Nat) (_ : Nat) => (t + 1, ReadResult.err true)) 2 1 ['a'] 7 ∧
    ReadFromLoop (fun (t : Nat) (_ : Nat) => (t + 1, ReadResult.err false)) 3 0 ['a'] 7
      = some (1, ['a'], false) :=
  ⟨(c6_readfrom_error_handling _ 2 0 ['a'] 7).1 1 rfl,
   (c6_readfrom_error_handling _ 2 0 ['a'] 7).2 1 rfl⟩

/-- **C7**: `WriteTo` invokes the write primitive exactly once with the full
buffer (its final primitive state is the state after that single call);
it returns `false` when the primitive reports `-1`; it returns `false` when
the primitive reports any length other than the requested `size`, including
a positive short write, with no retry; and it returns `true` exactly when
the reported length equals `size`. -/
theorem c7_writeto_single_attempt {σ δ : Type} (write_func : σ → δ → Nat → σ × Int)
    (s : σ) (data : δ) (size : Nat) :
    (WriteTo write_func s data size).1 = (write_func s data size).1 ∧
    ((write_func s data size).2 = -1 → (WriteTo write_func s data size).2 = false) ∧
    ((write_func s data size).2 ≠ (size : Int) → (WriteTo write_func s data size).2 = false) ∧
    ((WriteTo write_func s data size).2 = true ↔ (write_func s data size).2 = (size : Int)) := by
  unfold WriteTo
  refine ⟨rfl, ?_, ?_, ?_⟩
  · intro h
    simp [h]
  · intro h
    by_cases hm : (write_func s data size).2 = -1
    · simp [hm]
    · simp [hm, h]
  · constructor
    · intro h
      by_cases hm : (write_func s data size).2 = -1
      · simp [hm] at h
      · simp only [hm, if_false] at h
        exact of_decide_eq_true h
    · intro h
      have hne : (write_func s data size).2 ≠ -1 := by
        rw [h]
        omega
      simp [hne, h]

theorem c7_writeto_single_attempt_witness :
    (WriteTo (fun (t : Nat) (_ : Unit) (_ : Nat) => (t + 1, (-1 : Int))) 0 () 3).2 = false ∧
    (WriteTo (fun (t : Nat) (_ : Unit) (_ : Nat) => (t + 1, (1 : Int))) 0 () 5).2 = false ∧
    (WriteTo (fun (t : Nat) (_ : Unit) (k : Nat) => (t + 1, (k : Int))) 0 () 3).2 = true ∧
    (WriteTo (fun (t : Nat) (_ : Unit) (k : Nat) => (t + 1, (k : Int))) 0 () 3).1
      = ((fun (t : Nat) (_ : Unit) (k : Nat) => (t + 1, (k : Int))) 0 () 3).1 :=
  ⟨(c7_writeto_single_attempt _ 0 () 3).2.1 (by decide),
   (c7_writeto_single_attempt _ 0 () 5).2.2.1 (by decide),
   (c7_writeto_single_attempt _ 0 () 3).2.2.2.mpr (by decide),
   (c7_writeto_single_attempt _ 0 () 3).1⟩

theorem c1_normalized_path_invariants_witness :
    (NormalizePath "a//./b/").data.getLast? ≠ some '/' ∧
    ((NormalizePath "a//./b/").data.head? = some '/'
      ↔ ("a//./b/" : String).data.head? = some '/') :=
  ⟨(c1_normalized_path_invariants "a//./b/").2.2.2 (by decide),
   (c1_normalized_path_invariants "a//./b/").2.2.1⟩
